import Mathlib

/-!
Shallow embedding of the taboo-game card pipeline (clean_cards.py, review_cards.py,
add_cards.py, add_more_cards.py, generate_cards.py).

Words and phrases are modelled as lists of character codes (`List Nat`); ASCII
lower/upper-casing becomes arithmetic on codes, Python string operations become
the corresponding list operations.
-/

namespace Taboo

/-- A word or phrase: a sequence of character code points. -/
abbrev W := List Nat

end Taboo

/-- Convert a Lean string literal to the code-point model used in the embedding. -/
def String.toW (s : String) : Taboo.W := s.data.map Char.toNat

namespace Taboo

/-- ASCII whitespace recognised by Python's split/strip on the inputs modelled here. -/
def isWs (c : Nat) : Bool := decide (c = 32 ∨ c = 9 ∨ c = 10 ∨ c = 13)

/-- Python's str.lower on one ASCII character. -/
def toLowerC (c : Nat) : Nat := if 65 ≤ c ∧ c ≤ 90 then c + 32 else c

/-- Python's str.upper on one ASCII character. -/
def toUpperC (c : Nat) : Nat := if 97 ≤ c ∧ c ≤ 122 then c - 32 else c

/-- Python's str.lower. -/
def lower (w : W) : W := w.map toLowerC

/-- Python's str.capitalize: first character upper-cased, the rest lower-cased. -/
def capitalize : W → W
  | [] => []
  | c :: cs => toUpperC c :: lower cs

/-- Does the second list begin with the first? -/
def beginsWith : W → W → Bool
  | [], _ => true
  | _ :: _, [] => false
  | a :: as, b :: bs => a == b && beginsWith as bs

/-- Python's substring test, a in b. -/
def isSubstr (a : W) : W → Bool
  | [] => beginsWith a []
  | c :: cs => beginsWith a (c :: cs) || isSubstr a cs

/-- Python's str.endswith. -/
def endsWith (w suf : W) : Bool := beginsWith suf.reverse w.reverse

/-- Python's str.strip (leading and trailing whitespace removed). -/
def stripWs (w : W) : W := ((w.dropWhile isWs).reverse.dropWhile isWs).reverse

/-- Python's w.replace(" ", ""): remove every space character. -/
def removeSpaces (w : W) : W := w.filter (fun c => c ≠ 32)

/-- Remove every whitespace character (used by the spec-side predicates). -/
def removeWs (w : W) : W := w.filter (fun c => !(isWs c))

/-- Helper for splitWs: walk the input, collecting the current token in acc. -/
def splitWsAux : W → W → List W
  | [], acc => if acc = [] then [] else [acc]
  | c :: cs, acc =>
    if isWs c then
      if acc = [] then splitWsAux cs [] else acc :: splitWsAux cs []
    else splitWsAux cs (acc ++ [c])

/-- Python's str.split() with no argument: split on whitespace runs, dropping empties. -/
def splitWs (w : W) : List W := splitWsAux w []

/-- Python's " ".join. -/
def joinSpace : List W → W
  | [] => []
  | [u] => u
  | u :: us => u ++ 32 :: joinSpace us

/-- The suffix-stripping loop shared by all get_stem variants: strip the first
suffix in the list that matches under the length guard. -/
def stripFirst : List W → W → W
  | [], w => w
  | suf :: rest, w =>
    if endsWith w suf ∧ w.length > suf.length + 2 then w.take (w.length - suf.length)
    else stripFirst rest w

/-- Suffix list of get_stem in review_cards.py. -/
def suffixes_review : List W :=
  ["ing".toW, "ed".toW, "er".toW, "est".toW, "ly".toW, "s".toW, "es".toW,
   "ies".toW, "tion".toW, "ness".toW, "ment".toW]

/-- Suffix list of the local get_stem in clean_cards.py / add_cards.py. -/
def suffixes_clean : List W :=
  ["ing".toW, "ed".toW, "er".toW, "est".toW, "ly".toW, "s".toW, "es".toW,
   "tion".toW, "ness".toW]

/-- get_stem from review_cards.py (the most complete variant in the repo). -/
def get_stem (w : W) : W := stripFirst suffixes_review (lower w)

/-- The local get_stem used inside is_problematic_taboo in clean_cards.py. -/
def get_stem_clean (w : W) : W := stripFirst suffixes_clean (lower w)

/-- Stem as the spec describes it: same guard, but suffixes tried in the order
tion, ness, ies, ment, ing, ed, er, est, ly, es, s. -/
def stem_spec_order (w : W) : W :=
  stripFirst
    ["tion".toW, "ness".toW, "ies".toW, "ment".toW, "ing".toW, "ed".toW,
     "er".toW, "est".toW, "ly".toW, "es".toW, "s".toW] (lower w)

/-- is_problematic_taboo from clean_cards.py (the five-rule validator). -/
def is_problematic_taboo (main_word taboo : W) : Bool :=
  let main_lower := removeSpaces (lower main_word)
  let taboo_lower := lower taboo
  if 32 ∈ stripWs taboo then true
  else if taboo_lower = main_lower then true
  else if 3 ≤ taboo_lower.length ∧ isSubstr taboo_lower main_lower then true
  else if 3 ≤ main_lower.length ∧ isSubstr main_lower taboo_lower then true
  else if get_stem_clean main_lower = get_stem_clean taboo_lower then true
  else false

/-- The lowercase_words set of fix_capitalization in add_cards.py. -/
def lowercase_words : List W :=
  ["a".toW, "an".toW, "the".toW, "and".toW, "or".toW, "but".toW, "in".toW,
   "on".toW, "at".toW, "to".toW, "for".toW,
   "of".toW, "with".toW, "by".toW, "from".toW, "up".toW, "about".toW,
   "into".toW, "over".toW, "after".toW,
   "party".toW, "cake".toW, "ball".toW, "game".toW, "house".toW, "tree".toW,
   "car".toW, "day".toW,
   "night".toW, "room".toW, "box".toW, "bag".toW, "cup".toW, "glass".toW,
   "plate".toW, "bowl".toW,
   "machine".toW, "station".toW, "shop".toW, "store".toW, "bar".toW,
   "club".toW, "ring".toW,
   "dance".toW, "song".toW, "show".toW, "trip".toW, "ride".toW, "race".toW,
   "fight".toW, "match".toW,
   "cream".toW, "sauce".toW, "juice".toW, "bread".toW, "meat".toW,
   "fish".toW, "chicken".toW,
   "salad".toW, "soup".toW, "pie".toW, "cookie".toW, "candy".toW,
   "chips".toW, "fries".toW,
   "burger".toW, "sandwich".toW, "pizza".toW, "taco".toW, "sushi".toW,
   "pasta".toW, "rice".toW,
   "beans".toW, "corn".toW, "potato".toW, "tomato".toW, "cheese".toW,
   "butter".toW, "oil".toW,
   "salt".toW, "pepper".toW, "sugar".toW, "flour".toW, "egg".toW,
   "milk".toW, "water".toW,
   "wine".toW, "beer".toW, "coffee".toW, "tea".toW, "soda".toW, "pop".toW,
   "cocktail".toW]

/-- Treatment of one non-initial token in fix_capitalization. -/
def fixInterior (w : W) : W :=
  if lowercase_words.contains (lower w) then lower w else w

/-- The token loop of fix_capitalization: first token capitalized, the rest
lowered when in the lowercase set, otherwise kept as written. -/
def fixTokens : List W → List W
  | [] => []
  | w :: ws => capitalize w :: ws.map fixInterior

/-- fix_capitalization from add_cards.py (the capitalization normalizer). -/
def fix_capitalization (p : W) : W :=
  let words := splitWs p
  if words.length = 1 then capitalize (words.headD [])
  else joinSpace (fixTokens words)

/-- A card record: target phrase, taboo list, difficulty, category. -/
structure Card where
  word : W
  taboo : List W
  difficulty : W
  category : W
deriving DecidableEq

/-- Helper for dedupe_taboo_words: keep a word when its stem is not yet seen. -/
def dedupeAux : List W → List W → List W
  | [], _ => []
  | t :: ts, seen =>
    if get_stem t ∈ seen then dedupeAux ts seen
    else t :: dedupeAux ts (get_stem t :: seen)

/-- dedupe_taboo_words from review_cards.py: drop later words whose stem was
already seen, keeping first occurrences in order. -/
def dedupe_taboo_words (l : List W) : List W := dedupeAux l []

/-- Candidate loop of the merge in generate_cards.py: append a candidate card
when its lowercased word is not yet present, tagging it with the category. -/
def mergeAux (cat : W) : List W → List Card → List Card
  | _, [] => []
  | seen, c :: cs =>
    if lower c.word ∈ seen then mergeAux cat seen cs
    else { c with category := cat } :: mergeAux cat (lower c.word :: seen) cs

/-- The merge step of generate_cards.py main: extend the base collection with
the candidates whose case-folded word is new. -/
def merge (cat : W) (base cands : List Card) : List Card :=
  base ++ mergeAux cat (base.map (fun c => lower c.word)) cands

/-- Merge as claim C8 words it: walk the candidates in input order, appending
a candidate (tagged with the category) exactly when its case-folded word is
not yet among the case-folded words of the collection built so far, the base
plus the candidates already appended; a later duplicate finds the first
occurrence already present and is dropped silently. -/
def mergeSpec (cat : W) (base cands : List Card) : List Card :=
  cands.foldl
    (fun acc c =>
      if lower c.word ∈ acc.map (fun d => lower d.word) then acc
      else acc ++ [{ c with category := cat }])
    base

/-- Concrete base collection used by the merge witness. -/
def mergeBaseEx : List Card := [⟨"Dog".toW, [], "easy".toW, []⟩]

/-- Concrete candidate batch used by the merge witness: a case-folded
duplicate pair within the batch and a duplicate of a base word. -/
def mergeCandsEx : List Card :=
  [⟨"Cat".toW, [], "easy".toW, []⟩, ⟨"cat".toW, [], "hard".toW, []⟩,
   ⟨"dog".toW, [], "easy".toW, []⟩]

/-- Pad a taboo list with the literal fallback "clue" up to five entries
(clean_cards.py main, step 4). -/
def padClue (ts : List W) : List W := ts ++ List.replicate (5 - ts.length) ("clue".toW)

/-- Taboo-list repair of one card in clean_cards.py main: keep the good taboos
and splice in externally supplied replacements for the bad ones, truncating
and padding to five; cards with no bad taboos, or without a replacement entry,
are left unchanged. -/
def fix_card (w : W) (ts : List W) (reps : Option (List W)) : List W :=
  let good := ts.filter (fun t => !(is_problematic_taboo w t))
  let bad := ts.filter (fun t => is_problematic_taboo w t)
  if bad = [] then ts
  else
    match reps with
    | none => ts
    | some rs => padClue ((good ++ rs.take bad.length).take 5)

/-- Replacement lookup in the all_replacements mapping, keyed by the word. -/
def lookupRep (m : List (W × List W)) (w : W) : Option (List W) :=
  (m.find? (fun p => p.1 = w)).map Prod.snd

/-- clean_cards.py main: drop 3+-token cards, then repair each taboo list. -/
def clean_cards_main (reps : List (W × List W)) (cards : List Card) : List Card :=
  (cards.filter (fun c => (splitWs c.word).length ≤ 2)).map
    (fun c => { c with taboo := fix_card c.word c.taboo (lookupRep reps c.word) })

/-- Per-card validation in generate_cards_batch of add_cards.py: skip 3+-token
words, normalize capitalization, keep only legal taboos lowercased, and accept
the card when at least three remain. -/
def processCardAdd (c : Card) : Option Card :=
  if 2 < (splitWs c.word).length then none
  else
    let w := fix_capitalization c.word
    let good := (c.taboo.filter (fun t => !(is_problematic_taboo w t))).map lower
    if 3 ≤ good.length then some { c with word := w, taboo := good.take 5 }
    else none

/-- The card-validation part of generate_cards_batch in add_cards.py. -/
def generate_cards_batch_valid (cs : List Card) : List Card :=
  cs.filterMap processCardAdd

/-- Claim-side predicate, from the spec's words for condition 1 of
IsLegalTaboo: the candidate has internal whitespace. -/
def HasInternalWs (c : W) : Prop := (stripWs c).any isWs = true

/-- Claim C2 as stated: legality as the negation of the five spec conditions,
with Stem read as the spec's suffix table and order. -/
def ClaimLegalC2 (t c : W) : Prop :=
  ¬ (HasInternalWs c ∨
     lower c = removeWs (lower t) ∨
     (3 ≤ (lower c).length ∧ isSubstr (lower c) (removeWs (lower t)) = true) ∨
     (3 ≤ (removeWs (lower t)).length ∧
       isSubstr (removeWs (lower t)) (lower c) = true) ∨
     stem_spec_order (removeWs t) = stem_spec_order c)

/-- The amended five conditions, exactly as the validator in clean_cards.py
implements them: a space in the stripped candidate, equality, the two
substring rules, and equality of the validator's local nine-suffix stems. -/
def AmendedLegalC2 (t c : W) : Prop :=
  ¬ (32 ∈ stripWs c ∨
     lower c = removeSpaces (lower t) ∨
     (3 ≤ (lower c).length ∧ isSubstr (lower c) (removeSpaces (lower t)) = true) ∨
     (3 ≤ (removeSpaces (lower t)).length ∧
       isSubstr (removeSpaces (lower t)) (lower c) = true) ∨
     get_stem_clean (removeSpaces (lower t)) = get_stem_clean (lower c))

/-- The amended Stem of claim C1, written out as the suffix cascade in the
order the code tries it: ing, ed, er, est, ly, s, es, ies, tion, ness, ment,
each stripped only when the whole word is longer than the suffix plus two. -/
def stemChain (w : W) : W :=
  let wl := lower w
  if endsWith wl ("ing".toW) ∧ wl.length > 5 then wl.take (wl.length - 3)
  else if endsWith wl ("ed".toW) ∧ wl.length > 4 then wl.take (wl.length - 2)
  else if endsWith wl ("er".toW) ∧ wl.length > 4 then wl.take (wl.length - 2)
  else if endsWith wl ("est".toW) ∧ wl.length > 5 then wl.take (wl.length - 3)
  else if endsWith wl ("ly".toW) ∧ wl.length > 4 then wl.take (wl.length - 2)
  else if endsWith wl ("s".toW) ∧ wl.length > 3 then wl.take (wl.length - 1)
  else if endsWith wl ("es".toW) ∧ wl.length > 4 then wl.take (wl.length - 2)
  else if endsWith wl ("ies".toW) ∧ wl.length > 5 then wl.take (wl.length - 3)
  else if endsWith wl ("tion".toW) ∧ wl.length > 6 then wl.take (wl.length - 4)
  else if endsWith wl ("ness".toW) ∧ wl.length > 6 then wl.take (wl.length - 4)
  else if endsWith wl ("ment".toW) ∧ wl.length > 6 then wl.take (wl.length - 4)
  else wl

/-- A whitespace-free, nonempty token (what split() produces). -/
def GoodTok (t : W) : Prop := t ≠ [] ∧ ∀ c ∈ t, isWs c = false

/-! ### Character-level lemmas -/

theorem toLowerC_toLowerC (c : Nat) : toLowerC (toLowerC c) = toLowerC c := by
  unfold toLowerC
  by_cases h : 65 ≤ c ∧ c ≤ 90
  · rw [if_pos h]
    have h2 : ¬ (65 ≤ c + 32 ∧ c + 32 ≤ 90) := by omega
    rw [if_neg h2]
  · rw [if_neg h, if_neg h]

theorem toUpperC_toUpperC (c : Nat) : toUpperC (toUpperC c) = toUpperC c := by
  unfold toUpperC
  by_cases h : 97 ≤ c ∧ c ≤ 122
  · rw [if_pos h]
    have h2 : ¬ (97 ≤ c - 32 ∧ c - 32 ≤ 122) := by omega
    rw [if_neg h2]
  · rw [if_neg h, if_neg h]

theorem isWs_toLowerC (c : Nat) : isWs (toLowerC c) = isWs c := by
  unfold toLowerC
  by_cases h : 65 ≤ c ∧ c ≤ 90
  · rw [if_pos h]
    have : ((c + 32 = 32 ∨ c + 32 = 9 ∨ c + 32 = 10 ∨ c + 32 = 13)) ↔
        ((c = 32 ∨ c = 9 ∨ c = 10 ∨ c = 13)) := by omega
    simp only [isWs]
    exact decide_eq_decide.mpr this
  · rw [if_neg h]

theorem isWs_toUpperC (c : Nat) : isWs (toUpperC c) = isWs c := by
  unfold toUpperC
  by_cases h : 97 ≤ c ∧ c ≤ 122
  · rw [if_pos h]
    have : ((c - 32 = 32 ∨ c - 32 = 9 ∨ c - 32 = 10 ∨ c - 32 = 13)) ↔
        ((c = 32 ∨ c = 9 ∨ c = 10 ∨ c = 13)) := by omega
    simp only [isWs]
    exact decide_eq_decide.mpr this
  · rw [if_neg h]

theorem toLowerC_eq_32 (c : Nat) : toLowerC c = 32 ↔ c = 32 := by
  unfold toLowerC
  by_cases h : 65 ≤ c ∧ c ≤ 90
  · rw [if_pos h]; omega
  · rw [if_neg h]

/-! ### Word-level casing lemmas -/

theorem lower_lower (w : W) : lower (lower w) = lower w := by
  induction w with
  | nil => rfl
  | cons c cs ih => simp only [lower, List.map_cons] at *; rw [toLowerC_toLowerC, ih]

theorem capitalize_capitalize (t : W) : capitalize (capitalize t) = capitalize t := by
  cases t with
  | nil => rfl
  | cons c cs =>
    simp only [capitalize]
    rw [toUpperC_toUpperC, lower_lower]

theorem mem_lower_32 (w : W) : 32 ∈ lower w ↔ 32 ∈ w := by
  simp only [lower, List.mem_map]
  constructor
  · rintro ⟨c, hc, h⟩
    rwa [(toLowerC_eq_32 c).1 h] at hc
  · intro h
    exact ⟨32, h, by decide⟩

theorem GoodTok_lower {t : W} (h : GoodTok t) : GoodTok (lower t) := by
  obtain ⟨hne, hws⟩ := h
  refine ⟨by simp [lower, hne], ?_⟩
  intro c hc
  obtain ⟨d, hd, rfl⟩ := List.mem_map.1 hc
  rw [isWs_toLowerC]
  exact hws d hd

theorem GoodTok_capitalize {t : W} (h : GoodTok t) : GoodTok (capitalize t) := by
  obtain ⟨hne, hws⟩ := h
  cases t with
  | nil => exact absurd rfl hne
  | cons c cs =>
    refine ⟨by simp [capitalize], ?_⟩
    intro d hd
    simp only [capitalize, List.mem_cons] at hd
    rcases hd with rfl | hd
    · rw [isWs_toUpperC]; exact hws c (by simp)
    · obtain ⟨e, he, rfl⟩ := List.mem_map.1 hd
      rw [isWs_toLowerC]
      exact hws e (by simp [he])

theorem fixInterior_fixInterior (t : W) : fixInterior (fixInterior t) = fixInterior t := by
  by_cases h : lowercase_words.contains (lower t) = true
  · have h1 : fixInterior t = lower t := by unfold fixInterior; rw [if_pos h]
    have h2 : lowercase_words.contains (lower (lower t)) = true := by
      rw [lower_lower]; exact h
    rw [h1]
    unfold fixInterior
    rw [if_pos h2, lower_lower]
  · have h1 : fixInterior t = t := by unfold fixInterior; rw [if_neg h]
    rw [h1, h1]

theorem fixInterior_of_lower {t : W} (h : lower t = t) : fixInterior t = t := by
  unfold fixInterior
  rw [h]
  exact ite_self t

theorem GoodTok_fixInterior {t : W} (h : GoodTok t) : GoodTok (fixInterior t) := by
  unfold fixInterior
  by_cases hc : lowercase_words.contains (lower t) = true
  · rw [if_pos hc]; exact GoodTok_lower h
  · rwa [if_neg hc]

/-! ### splitWs / joinSpace lemmas -/

theorem splitWsAux_good : ∀ (l acc : W), (∀ c ∈ acc, isWs c = false) →
    ∀ t ∈ splitWsAux l acc, GoodTok t := by
  intro l
  induction l with
  | nil =>
    intro acc hacc t ht
    simp only [splitWsAux] at ht
    split at ht
    · simp at ht
    · next hne =>
      simp only [List.mem_singleton] at ht
      subst ht
      exact ⟨hne, hacc⟩
  | cons c cs ih =>
    intro acc hacc t ht
    simp only [splitWsAux] at ht
    split at ht
    · split at ht
      · exact ih [] (by simp) t ht
      · next hne =>
        simp only [List.mem_cons] at ht
        rcases ht with rfl | ht
        · exact ⟨hne, hacc⟩
        · exact ih [] (by simp) t ht
    · next hws =>
      refine ih (acc ++ [c]) ?_ t ht
      intro d hd
      rcases List.mem_append.1 hd with hd | hd
      · exact hacc d hd
      · simp only [List.mem_singleton] at hd
        subst hd
        exact Bool.not_eq_true _ ▸ (by simpa using hws)

theorem splitWs_good (p : W) : ∀ t ∈ splitWs p, GoodTok t :=
  splitWsAux_good p [] (by simp)

theorem splitWsAux_append : ∀ (u : W), (∀ c ∈ u, isWs c = false) →
    ∀ (rest acc : W), splitWsAux (u ++ rest) acc = splitWsAux rest (acc ++ u) := by
  intro u
  induction u with
  | nil => intro _ rest acc; simp
  | cons c cs ih =>
    intro hu rest acc
    have hc : isWs c = false := hu c (by simp)
    simp only [List.cons_append, splitWsAux, hc, Bool.false_eq_true, if_false]
    show splitWsAux (cs ++ rest) (acc ++ [c]) = splitWsAux rest (acc ++ c :: cs)
    rw [ih (fun d hd => hu d (by simp [hd])) rest (acc ++ [c])]
    simp

theorem splitWs_single {u : W} (h : GoodTok u) : splitWs u = [u] := by
  obtain ⟨hne, hws⟩ := h
  have := splitWsAux_append u hws [] []
  simp only [List.append_nil, List.nil_append] at this
  unfold splitWs
  rw [this]
  simp only [splitWsAux]
  rw [if_neg hne]

theorem splitWs_joinSpace : ∀ us : List W, (∀ u ∈ us, GoodTok u) →
    splitWs (joinSpace us) = us := by
  intro us
  induction us with
  | nil => intro _; rfl
  | cons u vs ih =>
    intro hgood
    cases vs with
    | nil =>
      exact splitWs_single (hgood u (by simp))
    | cons v rest =>
      obtain ⟨hne, hws⟩ := hgood u (by simp)
      show splitWsAux (u ++ 32 :: joinSpace (v :: rest)) [] = u :: v :: rest
      rw [splitWsAux_append u hws _ []]
      simp only [List.nil_append, splitWsAux, isWs]
      rw [if_pos (by decide), if_neg hne]
      have := ih (fun w hw => hgood w (by simp [hw]))
      exact congrArg (u :: ·) this

/-! ### fixTokens and fix_capitalization lemmas -/

theorem fixTokens_length (us : List W) : (fixTokens us).length = us.length := by
  cases us with
  | nil => rfl
  | cons u vs => simp [fixTokens]

theorem fixTokens_good {us : List W} (h : ∀ u ∈ us, GoodTok u) :
    ∀ t ∈ fixTokens us, GoodTok t := by
  cases us with
  | nil => simp [fixTokens]
  | cons u vs =>
    intro t ht
    simp only [fixTokens, List.mem_cons] at ht
    rcases ht with rfl | ht
    · exact GoodTok_capitalize (h u (by simp))
    · obtain ⟨w, hw, rfl⟩ := List.mem_map.1 ht
      exact GoodTok_fixInterior (h w (by simp [hw]))

theorem fixTokens_fixTokens (us : List W) : fixTokens (fixTokens us) = fixTokens us := by
  cases us with
  | nil => rfl
  | cons u vs =>
    simp only [fixTokens, List.map_map]
    rw [capitalize_capitalize]
    refine congrArg _ (List.map_congr_left ?_)
    intro t _
    exact fixInterior_fixInterior t

theorem fix_eq_joinSpace (p : W) :
    fix_capitalization p = joinSpace (fixTokens (splitWs p)) := by
  unfold fix_capitalization
  cases h : splitWs p with
  | nil => simp
  | cons u vs =>
    cases vs with
    | nil => simp [fixTokens, joinSpace]
    | cons v rest => simp [List.length_cons]

theorem splitWs_fix (p : W) : splitWs (fix_capitalization p) = fixTokens (splitWs p) := by
  rw [fix_eq_joinSpace]
  exact splitWs_joinSpace _ (fixTokens_good (splitWs_good p))

/-! ### dedupe_taboo_words lemmas -/

theorem dedupeAux_sublist : ∀ (l seen : List W), (dedupeAux l seen).Sublist l := by
  intro l
  induction l with
  | nil => intro seen; simp [dedupeAux]
  | cons t ts ih =>
    intro seen
    simp only [dedupeAux]
    split
    · exact (ih seen).cons t
    · exact (ih (get_stem t :: seen)).cons₂ t

theorem dedupeAux_first : ∀ (l seen : List W) (t : W), t ∈ dedupeAux l seen →
    get_stem t ∉ seen ∧
      ∃ l₁ l₂, l = l₁ ++ t :: l₂ ∧
        ∀ u ∈ l₁, get_stem u = get_stem t → get_stem u ∈ seen := by
  intro l
  induction l with
  | nil => intro seen t ht; simp [dedupeAux] at ht
  | cons t0 ts ih =>
    intro seen t ht
    simp only [dedupeAux] at ht
    split at ht
    · next hseen =>
      obtain ⟨hnot, l₁, l₂, rfl, hpre⟩ := ih seen t ht
      refine ⟨hnot, t0 :: l₁, l₂, rfl, ?_⟩
      intro u hu hequ
      rcases List.mem_cons.1 hu with rfl | hu
      · exact hseen
      · exact hpre u hu hequ
    · next hseen =>
      rcases List.mem_cons.1 ht with rfl | ht
      · exact ⟨hseen, [], ts, rfl, by simp⟩
      · obtain ⟨hnot, l₁, l₂, rfl, hpre⟩ := ih (get_stem t0 :: seen) t ht
        have hne : get_stem t ≠ get_stem t0 := by
          intro he
          exact hnot (by rw [he]; exact List.mem_cons_self _ _)
        refine ⟨fun hc => hnot (List.mem_cons_of_mem _ hc), t0 :: l₁, l₂, rfl, ?_⟩
        intro u hu hequ
        rcases List.mem_cons.1 hu with rfl | hu
        · exact absurd hequ.symm hne
        · rcases List.mem_cons.1 (hpre u hu hequ) with he | he
          · exact absurd (hequ.symm.trans he) hne
          · exact he

theorem dedupeAux_pairwise : ∀ (l seen : List W),
    List.Pairwise (fun a b => get_stem a ≠ get_stem b) (dedupeAux l seen) := by
  intro l
  induction l with
  | nil => intro seen; simp [dedupeAux]
  | cons t0 ts ih =>
    intro seen
    simp only [dedupeAux]
    split
    · exact ih seen
    · refine List.Pairwise.cons ?_ (ih (get_stem t0 :: seen))
      intro u hu he
      have := (dedupeAux_first ts (get_stem t0 :: seen) u hu).1
      exact this (by rw [← he]; exact List.mem_cons_self _ _)

theorem dedupeAux_cover : ∀ (l seen : List W) (t : W), t ∈ l →
    get_stem t ∈ seen ∨ ∃ u ∈ dedupeAux l seen, get_stem u = get_stem t := by
  intro l
  induction l with
  | nil => intro seen t ht; simp at ht
  | cons t0 ts ih =>
    intro seen t ht
    simp only [dedupeAux]
    split
    · next hseen =>
      rcases List.mem_cons.1 ht with rfl | ht
      · exact Or.inl hseen
      · exact ih seen t ht
    · next hseen =>
      rcases List.mem_cons.1 ht with rfl | ht
      · exact Or.inr ⟨t, List.mem_cons_self _ _, rfl⟩
      · rcases ih (get_stem t0 :: seen) t ht with hin | ⟨u, hu, hequ⟩
        · rcases List.mem_cons.1 hin with he | he
          · exact Or.inr ⟨t0, List.mem_cons_self _ _, he.symm⟩
          · exact Or.inl he
        · exact Or.inr ⟨u, List.mem_cons_of_mem _ hu, hequ⟩

/-! ### merge lemmas -/

theorem mergeAux_length (cat : W) : ∀ (cs : List Card) (seen : List W),
    (mergeAux cat seen cs).length ≤ cs.length := by
  intro cs
  induction cs with
  | nil => intro seen; simp [mergeAux]
  | cons c cs ih =>
    intro seen
    simp only [mergeAux]
    split
    · exact Nat.le_trans (ih seen) (Nat.le_succ _)
    · simpa using ih (lower c.word :: seen)

theorem mergeAux_sound (cat : W) : ∀ (cs : List Card) (seen : List W) (x : Card),
    x ∈ mergeAux cat seen cs →
      lower x.word ∉ seen ∧ ∃ c ∈ cs, x = { c with category := cat } := by
  intro cs
  induction cs with
  | nil => intro seen x hx; simp [mergeAux] at hx
  | cons c cs ih =>
    intro seen x hx
    simp only [mergeAux] at hx
    split at hx
    · obtain ⟨hnot, d, hd, rfl⟩ := ih seen x hx
      exact ⟨hnot, d, List.mem_cons_of_mem _ hd, rfl⟩
    · next hseen =>
      rcases List.mem_cons.1 hx with rfl | hx
      · exact ⟨hseen, c, List.mem_cons_self _ _, rfl⟩
      · obtain ⟨hnot, d, hd, rfl⟩ := ih (lower c.word :: seen) x hx
        exact ⟨fun hc => hnot (List.mem_cons_of_mem _ hc), d,
          List.mem_cons_of_mem _ hd, rfl⟩

theorem mergeAux_pairwise (cat : W) : ∀ (cs : List Card) (seen : List W),
    List.Pairwise (fun a b : Card => lower a.word ≠ lower b.word)
      (mergeAux cat seen cs) := by
  intro cs
  induction cs with
  | nil => intro seen; simp [mergeAux]
  | cons c cs ih =>
    intro seen
    simp only [mergeAux]
    split
    · exact ih seen
    · refine List.Pairwise.cons ?_ (ih (lower c.word :: seen))
      intro x hx he
      have := (mergeAux_sound cat cs (lower c.word :: seen) x hx).1
      refine this ?_
      have hw : lower ({ c with category := cat } : Card).word = lower c.word := rfl
      rw [← hw, ← he]
      exact List.mem_cons_self _ _

theorem mergeAux_cover (cat : W) : ∀ (cs : List Card) (seen : List W) (c : Card),
    c ∈ cs → lower c.word ∈ seen ∨
      lower c.word ∈ (mergeAux cat seen cs).map (fun d => lower d.word) := by
  intro cs
  induction cs with
  | nil => intro seen c hc; simp at hc
  | cons c0 cs ih =>
    intro seen c hc
    simp only [mergeAux]
    split
    · next hseen =>
      rcases List.mem_cons.1 hc with rfl | hc
      · exact Or.inl hseen
      · exact ih seen c hc
    · next hseen =>
      rcases List.mem_cons.1 hc with rfl | hc
      · exact Or.inr (List.mem_map.2
          ⟨{ c with category := cat }, List.mem_cons_self _ _, rfl⟩)
      · rcases ih (lower c0.word :: seen) c hc with hin | hin
        · rcases List.mem_cons.1 hin with he | he
          · exact Or.inr (List.mem_map.2
              ⟨{ c0 with category := cat }, List.mem_cons_self _ _, he.symm⟩)
          · exact Or.inl he
        · refine Or.inr ?_
          simp only [List.map_cons]
          exact List.mem_cons_of_mem _ hin

theorem mergeAux_congr_seen (cat : W) : ∀ (cs : List Card) (s₁ s₂ : List W),
    (∀ w, w ∈ s₁ ↔ w ∈ s₂) → mergeAux cat s₁ cs = mergeAux cat s₂ cs := by
  intro cs
  induction cs with
  | nil => intro s₁ s₂ _; rfl
  | cons c cs ih =>
    intro s₁ s₂ hs
    simp only [mergeAux]
    by_cases h : lower c.word ∈ s₁
    · rw [if_pos h, if_pos ((hs _).1 h)]
      exact ih s₁ s₂ hs
    · rw [if_neg h, if_neg (fun hc => h ((hs _).2 hc))]
      refine congrArg _ (ih _ _ ?_)
      intro w
      simp only [List.mem_cons]
      exact or_congr Iff.rfl (hs w)

theorem mergeSpec_eq_aux (cat : W) : ∀ (cs acc : List Card),
    mergeSpec cat acc cs = acc ++ mergeAux cat (acc.map (fun d => lower d.word)) cs := by
  intro cs
  induction cs with
  | nil =>
    intro acc
    simp [mergeSpec, mergeAux]
  | cons c cs ih =>
    intro acc
    unfold mergeSpec
    simp only [List.foldl_cons]
    by_cases h : lower c.word ∈ acc.map (fun d => lower d.word)
    · rw [if_pos h]
      have hrec := ih acc
      unfold mergeSpec at hrec
      rw [hrec]
      simp only [mergeAux]
      rw [if_pos h]
    · rw [if_neg h]
      have hrec := ih (acc ++ [{ c with category := cat }])
      unfold mergeSpec at hrec
      rw [hrec]
      have hmap : (acc ++ [{ c with category := cat }]).map
            (fun (d : Card) => lower d.word)
          = acc.map (fun d => lower d.word) ++ [lower c.word] := by
        rw [List.map_append]
        rfl
      rw [hmap]
      have hseen : mergeAux cat
          (acc.map (fun d => lower d.word) ++ [lower c.word]) cs
          = mergeAux cat (lower c.word :: acc.map (fun d => lower d.word)) cs := by
        refine mergeAux_congr_seen cat cs _ _ ?_
        intro w
        simp only [List.mem_append, List.mem_cons, List.mem_singleton]
        tauto
      rw [hseen]
      simp only [mergeAux]
      rw [if_neg h]
      simp [List.append_assoc]

theorem mergeAux_first (cat : W) : ∀ (cs : List Card) (seen : List W) (x : Card),
    x ∈ mergeAux cat seen cs →
      lower x.word ∉ seen ∧
        ∃ c l₁ l₂, cs = l₁ ++ c :: l₂ ∧ x = { c with category := cat } ∧
          ∀ u ∈ l₁, lower u.word = lower c.word → lower u.word ∈ seen := by
  intro cs
  induction cs with
  | nil => intro seen x hx; simp [mergeAux] at hx
  | cons c0 cs ih =>
    intro seen x hx
    simp only [mergeAux] at hx
    split at hx
    · next hseen =>
      obtain ⟨hnot, c, l₁, l₂, rfl, hx2, hpre⟩ := ih seen x hx
      refine ⟨hnot, c, c0 :: l₁, l₂, rfl, hx2, ?_⟩
      intro u hu hequ
      rcases List.mem_cons.1 hu with rfl | hu
      · exact hseen
      · exact hpre u hu hequ
    · next hseen =>
      rcases List.mem_cons.1 hx with rfl | hx
      · exact ⟨hseen, c0, [], cs, rfl, rfl, by simp⟩
      · obtain ⟨hnot, c, l₁, l₂, rfl, hx2, hpre⟩ := ih (lower c0.word :: seen) x hx
        have hxc : lower x.word = lower c.word := by rw [hx2]
        have hne : lower x.word ≠ lower c0.word := by
          intro he
          exact hnot (by rw [he]; exact List.mem_cons_self _ _)
        refine ⟨fun hc => hnot (List.mem_cons_of_mem _ hc), c, c0 :: l₁, l₂, rfl,
          hx2, ?_⟩
        intro u hu hequ
        rcases List.mem_cons.1 hu with rfl | hu
        · exact absurd (hxc.trans hequ.symm) hne
        · rcases List.mem_cons.1 (hpre u hu hequ) with he | he
          · exact absurd ((hxc.trans hequ.symm).trans he) hne
          · exact he

/-! ### Lowercasing commutes with the validator -/

theorem dropWhile_isWs_lower (l : W) :
    (lower l).dropWhile isWs = lower (l.dropWhile isWs) := by
  induction l with
  | nil => rfl
  | cons c cs ih =>
    simp only [lower, List.map_cons, List.dropWhile_cons]
    rw [isWs_toLowerC]
    by_cases h : isWs c = true
    · simp only [h, if_true]
      exact ih
    · simp only [h, if_false]
      rfl

theorem stripWs_lower (l : W) : stripWs (lower l) = lower (stripWs l) := by
  unfold stripWs
  rw [dropWhile_isWs_lower]
  show ((lower (l.dropWhile isWs)).reverse.dropWhile isWs).reverse = _
  have h1 : (lower (l.dropWhile isWs)).reverse = lower ((l.dropWhile isWs).reverse) := by
    simp [lower, List.map_reverse]
  rw [h1, dropWhile_isWs_lower]
  simp [lower, List.map_reverse]

theorem is_problematic_taboo_lower (w t : W) :
    is_problematic_taboo w (lower t) = is_problematic_taboo w t := by
  unfold is_problematic_taboo
  simp only [lower_lower]
  have h1 : (32 ∈ stripWs (lower t)) ↔ (32 ∈ stripWs t) := by
    rw [stripWs_lower]
    exact mem_lower_32 _
  by_cases h : 32 ∈ stripWs t
  · rw [if_pos h, if_pos (h1.2 h)]
  · rw [if_neg h, if_neg (fun hc => h (h1.1 hc))]

/-! ### Claim C1 -/

/-- Claim C1 fails as stated: on the word babies, the code's Stem strips the
earlier-listed s suffix and yields babie, while the spec's priority order
(tion, ness, ies, ment, ...) would strip ies and yield bab. -/
theorem c1_counterexample :
    get_stem ("babies".toW) = "babie".toW ∧
    stem_spec_order ("babies".toW) = "bab".toW ∧
    get_stem ("babies".toW) ≠ stem_spec_order ("babies".toW) := by
  refine ⟨by decide, by decide, by decide⟩

/-- Claim C1 (amended): Stem lowercases the word and tests the suffixes in the
order the code lists them, ing, ed, er, est, ly, s, es, ies, tion, ness, ment,
stripping the first whose guard len(word) > len(suffix) + 2 holds, and
returning the lowercased word unchanged when no suffix passes the guard. -/
theorem c1_stem_order (w : W) : get_stem w = stemChain w := rfl

/-! ### Claim C2 -/

/-- Claim C2 fails as stated: for target pays and candidate payment the
validator judges the candidate legal (its local nine-suffix stem leaves
payment intact), while the spec's five conditions with the spec Stem table
make it illegal (both spec stems are pay). -/
theorem c2_counterexample :
    is_problematic_taboo ("pays".toW) ("payment".toW) = false ∧
    ¬ ClaimLegalC2 ("pays".toW) ("payment".toW) := by
  refine ⟨by decide, ?_⟩
  unfold ClaimLegalC2 HasInternalWs
  decide

/-- Claim C2 (amended): the validator judges a candidate legal iff none of the
five conditions hold, where condition 1 reads a space character in the
stripped candidate and condition 5 compares the validator's own nine-suffix
stems (ing, ed, er, est, ly, s, es, tion, ness, in that order). -/
theorem c2_legal_iff (t c : W) :
    is_problematic_taboo t c = false ↔ AmendedLegalC2 t c := by
  unfold is_problematic_taboo AmendedLegalC2
  dsimp only
  split_ifs with h1 h2 h3 h4 h5 <;> simp_all

/-! ### Claim C3 -/

/-- Claim C3 fails as stated: the clean_cards repair splices replacement words
from the generation service into the taboo list without revalidating them, so
the repaired collection can retain an entry that is illegal against the card
word (here the replacement foot for Football). -/
theorem c3_counterexample :
    ∃ c ∈ clean_cards_main
        [("Football".toW, ["foot".toW])]
        [⟨"Football".toW, ["ball".toW, "kick".toW, "soccer".toW, "goal".toW,
          "field".toW], "easy".toW, []⟩],
      ∃ t ∈ c.taboo, is_problematic_taboo c.word t = true := by
  decide

/-- Claim C3 (amended): in the generation-batch validator of add_cards.py,
every taboo entry of every accepted card is legal against the card's
normalized word; the clean_cards supplementation pass guarantees this only
for entries its filter retained, not for spliced-in replacements. -/
theorem c3_retained_legal (cs : List Card) (c : Card)
    (hc : c ∈ generate_cards_batch_valid cs) :
    ∀ t ∈ c.taboo, is_problematic_taboo c.word t = false := by
  intro t ht
  obtain ⟨a, ha, hsome⟩ := List.mem_filterMap.1 hc
  unfold processCardAdd at hsome
  split at hsome
  · simp at hsome
  · dsimp only at hsome
    split at hsome
    · rw [Option.some.injEq] at hsome
      subst hsome
      have ht2 : t ∈ (a.taboo.filter
          (fun u => !(is_problematic_taboo (fix_capitalization a.word) u))).map lower :=
        List.mem_of_mem_take ht
      obtain ⟨t0, ht0, rfl⟩ := List.mem_map.1 ht2
      have hf := (List.mem_filter.1 ht0).2
      show is_problematic_taboo (fix_capitalization a.word) (lower t0) = false
      rw [is_problematic_taboo_lower]
      simpa using hf
    · simp at hsome

/-- Witness for c3_retained_legal at a concrete accepted card. -/
theorem c3_witness :
    is_problematic_taboo ("Volcano".toW) ("lava".toW) = false :=
  c3_retained_legal
    [⟨"Volcano".toW, ["lava".toW, "eruption".toW, "ash".toW], "easy".toW, []⟩]
    ⟨"Volcano".toW, ["lava".toW, "eruption".toW, "ash".toW], "easy".toW, []⟩
    (by decide) ("lava".toW) (by decide)

/-! ### Claim C4 -/

/-- Claim C4 fails as stated: a one-token card whose taboo list leaves fewer
than three legal words is dropped from the batch output, not accepted
degraded. -/
theorem c4_counterexample :
    (splitWs ("Run".toW)).length ≤ 2 ∧
    processCardAdd ⟨"Run".toW, ["running".toW, "runs".toW, "runner".toW,
      "sprint".toW, "jog".toW], "easy".toW, []⟩ = none := by
  refine ⟨by decide, by decide⟩

/-- Claim C4 (amended): a card whose word has at most two tokens is accepted
by the batch validator iff at least three legal taboo words remain; with
three or four it is accepted degraded, below three it is dropped. -/
theorem c4_accept_iff (c : Card) (h : (splitWs c.word).length ≤ 2) :
    processCardAdd c ≠ none ↔
      3 ≤ (c.taboo.filter
        (fun t => !(is_problematic_taboo (fix_capitalization c.word) t))).length := by
  unfold processCardAdd
  rw [if_neg (show ¬ 2 < (splitWs c.word).length by omega)]
  dsimp only
  simp only [List.length_map]
  split_ifs with h3
  · simp [h3]
  · simp [h3]

/-- Witness for c4_accept_iff at a concrete degraded card with three legal
taboo words. -/
theorem c4_witness :
    (splitWs ("Volcano".toW)).length ≤ 2 ∧
    (processCardAdd ⟨"Volcano".toW, ["lava".toW, "eruption".toW, "ash".toW],
        "hard".toW, []⟩ ≠ none ↔
      3 ≤ ((["lava".toW, "eruption".toW, "ash".toW] : List W).filter
        (fun t => !(is_problematic_taboo (fix_capitalization ("Volcano".toW)) t))).length) :=
  ⟨by decide, c4_accept_iff _ (by decide)⟩

/-! ### Claim C5 -/

/-- Claim C5: Normalize works token-by-token. A single-token phrase is
capitalized (first letter up, rest down); in a multi-token phrase the first
token is capitalized, later tokens are lowercased exactly when their
lowercase form is in the fixed set, otherwise kept as written; in particular
all-lowercase interior tokens pass through unchanged, so Normalize never
capitalizes a lowercase interior token. -/
theorem c5_normalize (p : W) :
    (∀ w, splitWs p = [w] → fix_capitalization p = capitalize w) ∧
    (∀ w rest, splitWs p = w :: rest → rest ≠ [] →
      fix_capitalization p = joinSpace (capitalize w ::
        rest.map (fun t => if lowercase_words.contains (lower t) then lower t else t))) ∧
    (∀ w rest, splitWs p = w :: rest → (∀ t ∈ rest, lower t = t) →
      fix_capitalization p = joinSpace (capitalize w :: rest)) := by
  refine ⟨?_, ?_, ?_⟩
  · intro w h
    unfold fix_capitalization
    rw [h]
    simp
  · intro w rest h _
    rw [fix_eq_joinSpace, h]
    rfl
  · intro w rest h hlow
    rw [fix_eq_joinSpace, h]
    show joinSpace (capitalize w :: rest.map fixInterior) = _
    have hmap : rest.map fixInterior = rest := by
      conv_rhs => rw [← List.map_id rest]
      exact List.map_congr_left (fun t ht => fixInterior_of_lower (hlow t ht))
    rw [hmap]

/-- Witness for c5_normalize: BIRTHDAY normalizes to Birthday. -/
theorem c5_witness :
    fix_capitalization ("BIRTHDAY".toW) = capitalize ("BIRTHDAY".toW) ∧
    capitalize ("BIRTHDAY".toW) = "Birthday".toW :=
  ⟨(c5_normalize ("BIRTHDAY".toW)).1 ("BIRTHDAY".toW) (by decide), by decide⟩

/-! ### Claim C6 -/

/-- Claim C6: Normalize is idempotent. -/
theorem c6_normalize_idempotent (p : W) :
    fix_capitalization (fix_capitalization p) = fix_capitalization p := by
  rw [fix_eq_joinSpace (fix_capitalization p), splitWs_fix, fixTokens_fixTokens,
    ← fix_eq_joinSpace]

/-! ### Claim C7 -/

/-- Claim C7: stem-deduplication returns an order-preserving sublist in which
no two entries share a stem, every stem class of the input is represented,
and each kept entry is the first of its stem class in the input. -/
theorem c7_dedupe_first_per_stem (l : List W) :
    (dedupe_taboo_words l).Sublist l ∧
    List.Pairwise (fun a b => get_stem a ≠ get_stem b) (dedupe_taboo_words l) ∧
    (∀ t ∈ l, ∃ u ∈ dedupe_taboo_words l, get_stem u = get_stem t) ∧
    (∀ t ∈ dedupe_taboo_words l,
      ∃ l₁ l₂, l = l₁ ++ t :: l₂ ∧ ∀ u ∈ l₁, get_stem u ≠ get_stem t) := by
  refine ⟨dedupeAux_sublist l [], dedupeAux_pairwise l [], ?_, ?_⟩
  · intro t ht
    rcases dedupeAux_cover l [] t ht with h | h
    · simp at h
    · exact h
  · intro t ht
    obtain ⟨_, l₁, l₂, heq, hpre⟩ := dedupeAux_first l [] t ht
    exact ⟨l₁, l₂, heq, fun u hu he => List.not_mem_nil _ (hpre u hu he)⟩

/-- Witness for c7_dedupe_first_per_stem: donut and donuts share a stem and
dedup keeps donut only. -/
theorem c7_witness :
    dedupe_taboo_words ["donut".toW, "donuts".toW] = ["donut".toW] ∧
    (∃ u ∈ dedupe_taboo_words ["donut".toW, "donuts".toW],
      get_stem u = get_stem ("donuts".toW)) :=
  ⟨by decide, (c7_dedupe_first_per_stem _).2.2.1 ("donuts".toW) (by decide)⟩

/-! ### Claim C8 -/

/-- Claim C8: Merge equals the claim's candidate-by-candidate specification
(iterate candidates in input order, appending a candidate iff its case-folded
word is not yet among the case-folded words of the collection built so far,
so the first occurrence wins and later duplicates are dropped silently); in
addition the base is an unchanged prefix, the length bound holds, appended
cards have pairwise distinct folded words, each appended card is the
category-tagged first candidate of its fold class with a word absent from the
base, and every candidate's folded word occurs in the merged output. -/
theorem c8_merge_dedup (cat : W) (base cands : List Card) :
    merge cat base cands = mergeSpec cat base cands ∧
    (merge cat base cands).take base.length = base ∧
    (merge cat base cands).length ≤ base.length + cands.length ∧
    List.Pairwise (fun a b : Card => lower a.word ≠ lower b.word)
      ((merge cat base cands).drop base.length) ∧
    (∀ x ∈ (merge cat base cands).drop base.length,
      lower x.word ∉ base.map (fun d => lower d.word) ∧
        ∃ c l₁ l₂, cands = l₁ ++ c :: l₂ ∧ x = { c with category := cat } ∧
          ∀ u ∈ l₁, lower u.word ≠ lower c.word) ∧
    (∀ c ∈ cands,
      lower c.word ∈ (merge cat base cands).map (fun d => lower d.word)) := by
  unfold merge
  refine ⟨?_, List.take_left _ _, ?_, ?_, ?_, ?_⟩
  · exact (mergeSpec_eq_aux cat cands base).symm
  · rw [List.length_append]
    exact Nat.add_le_add_left (mergeAux_length cat cands _) _
  · rw [List.drop_left]
    exact mergeAux_pairwise cat cands _
  · rw [List.drop_left]
    intro x hx
    obtain ⟨hnot, c, l₁, l₂, hdecomp, hx2, hpre⟩ :=
      mergeAux_first cat cands (base.map (fun c => lower c.word)) x hx
    have hxc : lower x.word = lower c.word := by rw [hx2]
    refine ⟨hnot, c, l₁, l₂, hdecomp, hx2, ?_⟩
    intro u hu hequ
    apply hnot
    rw [hxc, ← hequ]
    exact hpre u hu hequ
  · intro c hc
    rcases mergeAux_cover cat cands (base.map (fun c => lower c.word)) c hc with h | h
    · rw [List.map_append]
      exact List.mem_append.2 (Or.inl h)
    · rw [List.map_append]
      exact List.mem_append.2 (Or.inr h)

/-- Witness for c8_merge_dedup at a concrete base and candidate batch: the
batch holds a folded duplicate pair (Cat then cat) and a duplicate of the
base word (dog); the merged output keeps the base unchanged, appends the
first Cat candidate tagged with the category, and drops both duplicates. -/
theorem c8_witness :
    merge ("Pets".toW) mergeBaseEx mergeCandsEx
        = mergeSpec ("Pets".toW) mergeBaseEx mergeCandsEx ∧
    merge ("Pets".toW) mergeBaseEx mergeCandsEx
        = [⟨"Dog".toW, [], "easy".toW, []⟩,
           ⟨"Cat".toW, [], "easy".toW, "Pets".toW⟩] ∧
    lower ("cat".toW) ∈
      (merge ("Pets".toW) mergeBaseEx mergeCandsEx).map (fun d => lower d.word) :=
  ⟨(c8_merge_dedup ("Pets".toW) mergeBaseEx mergeCandsEx).1,
   by decide,
   (c8_merge_dedup ("Pets".toW) mergeBaseEx mergeCandsEx).2.2.2.2.2
     ⟨"cat".toW, [], "hard".toW, []⟩ (by decide)⟩

/-! ### Claim C9 -/

/-- Claim C9: neither repair path emits a card whose word has three or more
whitespace-separated tokens: clean_cards filters such cards out before any
repair, and the add_cards batch validator skips them and only reshapes
words without changing their token count. -/
theorem c9_no_three_token_words :
    (∀ (reps : List (W × List W)) (cards : List Card),
      ∀ c ∈ clean_cards_main reps cards, (splitWs c.word).length ≤ 2) ∧
    (∀ (cs : List Card), ∀ c ∈ generate_cards_batch_valid cs,
      (splitWs c.word).length ≤ 2) := by
  constructor
  · intro reps cards c hc
    unfold clean_cards_main at hc
    obtain ⟨a, ha, rfl⟩ := List.mem_map.1 hc
    have hfa := (List.mem_filter.1 ha).2
    show (splitWs a.word).length ≤ 2
    simpa using hfa
  · intro cs c hc
    obtain ⟨a, ha, hsome⟩ := List.mem_filterMap.1 hc
    unfold processCardAdd at hsome
    split at hsome
    · simp at hsome
    · next hlen =>
      dsimp only at hsome
      split at hsome
      · rw [Option.some.injEq] at hsome
        subst hsome
        show (splitWs (fix_capitalization a.word)).length ≤ 2
        rw [splitWs_fix, fixTokens_length]
        omega
      · simp at hsome

/-- Witness for c9_no_three_token_words at a concrete repaired collection. -/
theorem c9_witness : (splitWs ("Volcano".toW)).length ≤ 2 :=
  c9_no_three_token_words.1 [] [⟨"Volcano".toW, [], "easy".toW, []⟩]
    ⟨"Volcano".toW, [], "easy".toW, []⟩ (by decide)

/-! ### Claim C10 -/

/-- Claim C10: on any phrase with at least one token, Normalize preserves the
number of whitespace-split tokens and its output is exactly its own tokens
joined by single spaces, so whitespace runs collapse to one space. -/
theorem c10_token_structure (p : W) (h : splitWs p ≠ []) :
    (splitWs (fix_capitalization p)).length = (splitWs p).length ∧
    fix_capitalization p = joinSpace (splitWs (fix_capitalization p)) := by
  constructor
  · rw [splitWs_fix, fixTokens_length]
  · rw [splitWs_fix, ← fix_eq_joinSpace]

/-- Witness for c10_token_structure: a tab and doubled spaces collapse. -/
theorem c10_witness :
    splitWs ("ice \t cream".toW) ≠ [] ∧
    ((splitWs (fix_capitalization ("ice \t cream".toW))).length =
        (splitWs ("ice \t cream".toW)).length ∧
      fix_capitalization ("ice \t cream".toW) =
        joinSpace (splitWs (fix_capitalization ("ice \t cream".toW)))) ∧
    fix_capitalization ("ice \t cream".toW) = "Ice cream".toW :=
  ⟨by decide, c10_token_structure ("ice \t cream".toW) (by decide), by decide⟩

end Taboo
